import Mathlib

/-!
Shallow embedding of `src/bin/s3-bulk-move.rs` (repository `smmckay/aws-tools`).

The program parses two `s3://bucket/key` URLs, lists the source bucket page by
page, strips the source key prefix from each listed key, optionally applies a
regex filter / rename step, and prints each surviving `(key, size)` pair.

Strings are modelled as `List Char`; Rust byte indices are modelled through the
UTF-8 byte length of each character, so that the byte-indexed `String::split_off`
(and its panics on non-boundary indices) can be stated faithfully.
-/

namespace S3BulkMove

/-- Character lists stand in for Rust `String` values. -/
abbrev Str := List Char

/-- Number of bytes of the UTF-8 encoding of a character (what Rust `str::len`
counts per character). -/
def charBytes (c : Char) : Nat :=
  if c.toNat < 0x80 then 1
  else if c.toNat < 0x800 then 2
  else if c.toNat < 0x10000 then 3
  else 4

/-- UTF-8 byte length of a string, i.e. Rust `str::len`. -/
def utf8Len : Str → Nat
  | [] => 0
  | c :: cs => charBytes c + utf8Len cs

/-- Rust `String::split_off(at)` as used on line 132 of the source: returns the
part of the string after byte index `at`. `none` models the panic that occurs
when `at` exceeds the byte length or does not lie on a character boundary. -/
def splitOffBytes (s : Str) (i : Nat) : Option Str :=
  if i = 0 then some s
  else
    match s with
    | [] => none
    | c :: cs => if charBytes c ≤ i then splitOffBytes cs (i - charBytes c) else none

/-- Byte length of the optional listing prefix, computed in the source
(lines 128-131) as `list_req.prefix.map(|pfx| pfx.len()).unwrap_or(0)`.
(The Rust field is named `prefix`.) -/
def pfxLenOf (p : Option Str) : Nat := (p.map utf8Len).getD 0

/-- Parsed S3 URL (source struct `S3Url`): a bucket and an optional key prefix.
The Rust field `prefix` is rendered as `pfx`. -/
structure S3Url where
  bucket : Str
  pfx : Option Str
deriving DecidableEq

/-- The scheme part of the URL grammar. -/
def s3Scheme : Str := "s3://".data

/-- The URL parser from `S3UrlVisitor::visit_str` (lines 62-75).  The source
matches the anchored regex `^s3://([^/]+)/(.*)` with `Regex::captures` and
fails (a `serde` invalid-value error) on no match.  Since the first class
excludes `/`, group 1 is exactly the maximal run of non-slash characters after
the scheme, which must be non-empty and followed by `/`; group 2 is `.*`,
which in the `regex` crate stops at the first newline (`.` does not match
`\n`) and does not need to reach the end of the input.  An empty group 2 is
normalized to `none` (line 73: `if prefix.len() > 0`). -/
def parseS3Url (v : Str) : Option S3Url :=
  if v.take 5 = s3Scheme then
    let rest := v.drop 5
    let bucket := rest.takeWhile (fun c => c != '/')
    match rest.drop bucket.length with
    | '/' :: tail =>
        if bucket = [] then none
        else
          let p := tail.takeWhile (fun c => c != '\n')
          some ⟨bucket, if p = [] then none else some p⟩
    | _ => none
  else none

/-- Spec-side grammar `scheme://container/keypath`: a non-empty slash-free
container followed by `/` and an arbitrary key path. -/
def matchesGrammar (v : Str) : Prop :=
  ∃ c k, c ≠ [] ∧ '/' ∉ c ∧ v = s3Scheme ++ c ++ '/' :: k

/-- Re-serialization of a parse result: container ++ "/" ++ (prefix or empty),
as described by the spec round-trip property. -/
def serializeLoc (u : S3Url) : Str := u.bucket ++ '/' :: (u.pfx.getD [])

/-! ## Regular expressions

The filter / rename stage delegates matching and template expansion to the
external `regex` crate (`Regex::captures`, `Regex::is_match`,
`Captures::expand`).  The fragment of regex syntax exercised by the program's
documented rules is embedded below: literals, `\d`, `.`, concatenation, greedy
`+`, numbered capture groups and the end anchor `$`.  Matching follows the
crate's leftmost-first semantics: the scan position is advanced from the left,
and at the first position with a match the preference order (greedy repetition
first) picks the capture assignment. -/

/-- Atomic single-character patterns: a literal, the class `\d`, or `.`
(which in the `regex` crate matches anything except a newline). -/
inductive RAtom where
  | lit (c : Char)
  | digit
  | dot
deriving DecidableEq

/-- Whether an atom matches one character. -/
def RAtom.matchesChar : RAtom → Char → Bool
  | .lit c, d => c == d
  | .digit, d => d.isDigit
  | .dot, d => d != '\n'

/-- Regex abstract syntax: atoms, concatenation, greedy `+`, numbered capture
groups, and the end-of-text anchor `$`. -/
inductive Re where
  | atom (a : RAtom)
  | seq (r₁ r₂ : Re)
  | plus (r : Re)
  | group (n : Nat) (r : Re)
  | endText
deriving DecidableEq

/-- Capture assignment of a match: the list of (group number, captured text)
pairs, in completion order. -/
abbrev Groups := List (Nat × Str)

/-- All ways a pattern can match a prefix of `s`, as (remaining suffix,
captures) pairs in the backtracking preference order (greedy repetition
first).  The fuel argument only bounds recursion depth; `matchFuel` below
always supplies enough for the whole search. -/
def reMatch : Nat → Re → Str → List (Str × Groups)
  | 0, _, _ => []
  | _ + 1, .atom _, [] => []
  | _ + 1, .atom a, c :: cs => if a.matchesChar c then [(cs, [])] else []
  | f + 1, .seq r₁ r₂, s =>
      (reMatch f r₁ s).flatMap fun p =>
        (reMatch f r₂ p.1).map fun q => (q.1, p.2 ++ q.2)
  | f + 1, .plus r, s =>
      (reMatch f r s).flatMap fun p =>
        (if p.1.length < s.length then
          (reMatch f (.plus r) p.1).map fun q => (q.1, p.2 ++ q.2)
        else []) ++ [p]
  | f + 1, .group n r, s =>
      (reMatch f r s).map fun p => (p.1, p.2 ++ [(n, s.take (s.length - p.1.length))])
  | _ + 1, .endText, s => if s.isEmpty then [([], [])] else []

/-- Syntactic size of a pattern, used only to choose a fuel bound. -/
def Re.size : Re → Nat
  | .atom _ => 1
  | .seq r₁ r₂ => r₁.size + r₂.size + 1
  | .plus r => r.size + 1
  | .group _ r => r.size + 1
  | .endText => 1

/-- Fuel bound that is ample for a full match of `re` against `s`. -/
def matchFuel (re : Re) (s : Str) : Nat := (re.size + 1) * (s.length + 1) + 1

/-- `Regex::captures`: scan positions from the left and return the captures of
the first match found (leftmost-first), or `none` when the pattern matches
nowhere in `s`. -/
def captures (re : Re) : Str → Option Groups
  | [] => ((reMatch (matchFuel re []) re []).head?).map fun p => p.2
  | c :: cs =>
    match (reMatch (matchFuel re (c :: cs)) re (c :: cs)).head? with
    | some p => some p.2
    | none => captures re cs

/-- `Regex::is_match`: does the pattern match anywhere in `s`? -/
def is_match (re : Re) (s : Str) : Bool := (captures re s).isSome

/-! ## Template expansion (`Captures::expand`)

The `regex` crate's replacement syntax: `$$` is a literal `$`; `$name` uses
the longest run of word characters after `$` (all-digit names refer to
numbered groups); a brace-delimited `$\x7bname\x7d` form is also accepted; a
`$` not followed by a valid reference is emitted literally; references to
unknown or unset groups expand to the empty string.  The embedded patterns
only produce numbered groups, so non-numeric names are always unset. -/

/-- A word character: `[0-9A-Za-z_]`. -/
def isWordChar (c : Char) : Bool := c.isAlphanum || c == '_'

/-- Parse an all-digit group reference. -/
def parseNat? (s : Str) : Option Nat :=
  if s ≠ [] ∧ s.all (fun c => c.isDigit) then
    some (s.foldl (fun n c => n * 10 + (c.toNat - '0'.toNat)) 0)
  else none

/-- Resolve one group reference: numbered groups are looked up in the capture
list, anything unknown or unset expands to the empty string. -/
def groupRef (gs : Groups) (name : Str) : Str :=
  match parseNat? name with
  | some n => (((gs.find? fun p => p.1 == n).map fun p => p.2).getD [])
  | none => []

/-- Worker for template expansion; the fuel (decremented on every step) makes
the recursion structural, and `expandCaptures` supplies more than the
template's length, which is always sufficient. -/
def expandAux (gs : Groups) : Nat → Str → Str
  | _, [] => []
  | 0, s => s
  | f + 1, c :: rest =>
    if c = '$' then
      match rest with
      | [] => [ '$' ]
      | d :: rest₂ =>
        if d = '$' then '$' :: expandAux gs f rest₂
        else if d = '\x7b' then
          (let name := rest₂.takeWhile fun x => x != '\x7d'
           match rest₂.drop name.length with
           | e :: tail =>
             if e = '\x7d' then groupRef gs name ++ expandAux gs f tail
             else '$' :: expandAux gs f rest
           | [] => '$' :: expandAux gs f rest)
        else
          (let name := rest.takeWhile isWordChar
           if name = [] then '$' :: expandAux gs f rest
           else groupRef gs name ++ expandAux gs f (rest.drop name.length))
    else c :: expandAux gs f rest

/-- `Captures::expand`: substitute group references in a replacement
template. -/
def expandCaptures (gs : Groups) (t : Str) : Str := expandAux gs (t.length + 1) t

/-! ## The per-entry transformation and per-page pipeline -/

/-- The filter / rename stage applied to one relative key (source lines
135-153).  No pattern: pass through.  Pattern only: keep iff `is_match`.
Pattern and template: keep iff `captures` succeeds, replacing the key by the
expanded template.  The size always passes through unchanged. -/
def keyTransform (src_filter : Option Re) (dest_replace : Option Str)
    (key : Str) (sz : Int) : Option (Str × Int) :=
  match src_filter with
  | none => some (key, sz)
  | some re =>
    match dest_replace with
    | some rep => (captures re key).map fun gs => (expandCaptures gs rep, sz)
    | none => if is_match re key then some (key, sz) else none

/-- One listed object (rusoto `Object`): both fields are optional in the S3
response model. -/
structure Object where
  key : Option Str
  size : Option Int
deriving DecidableEq

/-- One listing response (rusoto `ListObjectsOutput`), restricted to the
fields the program reads. -/
structure ListObjectsOutput where
  contents : Option (List Object)
  is_truncated : Option Bool
deriving DecidableEq

/-- The per-page iterator chain (source lines 124-157), evaluated in order:
entries missing a key or a size are filtered out (line 125); the key prefix's
byte length is split off the key (lines 126-133), where `none` in the result
models the `split_off` panic at the offending entry (records produced before
it have already been printed); the filter / rename stage is applied; surviving
records are collected in order.  Returns the emitted records and whether a
panic interrupted the page. -/
def transformObjs (sf : Option Re) (dr : Option Str) (pfxLen : Nat) :
    List Object → List (Str × Int) × Bool
  | [] => ([], false)
  | o :: os =>
    match o.key, o.size with
    | some k, some sz =>
      (match splitOffBytes k pfxLen with
       | none => ([], true)
       | some rel =>
         match keyTransform sf dr rel sz with
         | some out =>
           let rest := transformObjs sf dr pfxLen os
           (out :: rest.1, rest.2)
         | none => transformObjs sf dr pfxLen os)
    | _, _ => transformObjs sf dr pfxLen os

/-- Outcome of running the listing loop for a bounded number of iterations:
normal completion, an API error propagated out of `run`, a panic, or fuel
exhaustion (the loop was still running).  Every constructor carries the
records printed before the outcome. -/
inductive RunOutcome (ε : Type) where
  | ok (out : List (Str × Int))
  | apiError (out : List (Str × Int)) (e : ε)
  | panicked (out : List (Str × Int))
  | outOfFuel (out : List (Str × Int))
deriving DecidableEq

/-- Prepend records already printed to an outcome's record list. -/
def RunOutcome.withOutput (pre : List (Str × Int)) : RunOutcome ε → RunOutcome ε
  | .ok out => .ok (pre ++ out)
  | .apiError out e => .apiError (pre ++ out) e
  | .panicked out => .panicked (pre ++ out)
  | .outOfFuel out => .outOfFuel (pre ++ out)

/-- The enumeration loop of `run` (source lines 117-164), parametrized by the
page fetcher `fetch` (the `list_objects` call as a function of the marker; the
bucket and prefix of `list_req` are fixed for the whole loop).  Each
iteration: propagate a fetcher error (`?` on line 119); stop with success when
the page is absent or empty (lines 120-122); run the per-page pipeline and
print its records; then `rsp.is_truncated.unwrap()` (line 159) — `none`
panics — and on `true` continue with the marker set to the last raw entry's
optional key (line 160), on `false` stop. -/
def runLoop (fetch : Option Str → Except ε ListObjectsOutput)
    (sf : Option Re) (dr : Option Str) (pfxLen : Nat) :
    Nat → Option Str → RunOutcome ε
  | 0, _ => .outOfFuel []
  | n + 1, marker =>
    match fetch marker with
    | .error e => .apiError [] e
    | .ok rsp =>
      match rsp.contents with
      | none => .ok []
      | some objs =>
        if objs = [] then .ok []
        else
          match transformObjs sf dr pfxLen objs with
          | (out, true) => .panicked out
          | (out, false) =>
            match rsp.is_truncated with
            | none => .panicked out
            | some false => .ok out
            | some true =>
              match objs.getLast? with
              | none => .panicked out
              | some lastObj => (runLoop fetch sf dr pfxLen n lastObj.key).withOutput out

/-- The exit-code logic of `main` (source lines 84-89): print the error and
exit 1 when `run` returned an error, otherwise fall through and exit 0. -/
def mainExitCode (res : Except ε Unit) : Nat :=
  match res with
  | .ok _ => 0
  | .error _ => 1

/-! ## Concrete patterns and fixtures used by the documented examples -/

/-- The example filter `(\d+)/(.+)`. -/
def digitsSlashRest : Re :=
  .seq (.group 1 (.plus (.atom .digit)))
    (.seq (.atom (.lit '/')) (.group 2 (.plus (.atom .dot))))

/-- The example filter `\.log$`. -/
def dotLogEnd : Re :=
  .seq (.atom (.lit '.'))
    (.seq (.atom (.lit 'l')) (.seq (.atom (.lit 'o')) (.seq (.atom (.lit 'g')) .endText)))

/-- A fetcher whose single page is empty. -/
def fetchEmptyPage : Option Str → Except Unit ListObjectsOutput :=
  fun _ => .ok ⟨some [], none⟩

/-- A fetcher that always reports one single-object page, truncated. -/
def fetchTruncOne : Option Str → Except Unit ListObjectsOutput :=
  fun _ => .ok ⟨some [⟨some ( "a".data), some 1⟩], some true⟩

/-- A fetcher that reports one single-object page, not truncated. -/
def fetchLastOne : Option Str → Except Unit ListObjectsOutput :=
  fun _ => .ok ⟨some [⟨some ( "a".data), some 1⟩], some false⟩

/-- A fetcher that reports one single-object page with no truncation flag. -/
def fetchNoFlag : Option Str → Except Unit ListObjectsOutput :=
  fun _ => .ok ⟨some [⟨some ( "a".data), some 1⟩], none⟩

/-- A fetcher whose page is truncated and whose last raw entry has no key. -/
def fetchKeylessLast : Option Str → Except Unit ListObjectsOutput :=
  fun _ => .ok ⟨some [⟨none, some 2⟩], some true⟩

/-- A fetcher that always fails. -/
def fetchFails : Option Str → Except Unit ListObjectsOutput :=
  fun _ => .error ()

/-- A fetcher whose single-object page has a key shorter than the prefix the
program will strip. -/
def fetchShortKey : Option Str → Except Unit ListObjectsOutput :=
  fun _ => .ok ⟨some [⟨some ( "a".data), some 1⟩], some false⟩

/-! ## Helper lemmas about byte-indexed splitting -/

theorem charBytes_pos (c : Char) : 1 ≤ charBytes c := by
  unfold charBytes; split_ifs <;> omega

theorem utf8Len_append (a b : Str) : utf8Len (a ++ b) = utf8Len a + utf8Len b := by
  induction a with
  | nil => simp [utf8Len]
  | cons c cs ih => simp [utf8Len, ih]; omega

theorem splitOffBytes_zero (s : Str) : splitOffBytes s 0 = some s := by
  rw [splitOffBytes.eq_def]; simp

theorem splitOffBytes_nil (i : Nat) (h : i ≠ 0) : splitOffBytes [] i = none := by
  rw [splitOffBytes.eq_def, if_neg h]

theorem splitOffBytes_cons (c : Char) (cs : Str) (i : Nat) (h : i ≠ 0) :
    splitOffBytes (c :: cs) i =
      if charBytes c ≤ i then splitOffBytes cs (i - charBytes c) else none := by
  rw [splitOffBytes.eq_def, if_neg h]

theorem splitOffBytes_append (p r : Str) : splitOffBytes (p ++ r) (utf8Len p) = some r := by
  induction p with
  | nil => simpa [utf8Len] using splitOffBytes_zero r
  | cons c cs ih =>
    have h1 := charBytes_pos c
    have hne : utf8Len (c :: cs) ≠ 0 := by simp only [utf8Len]; omega
    rw [List.cons_append, splitOffBytes_cons _ _ _ hne]
    simp only [utf8Len]
    rw [if_pos (by omega)]
    have h2 : charBytes c + utf8Len cs - charBytes c = utf8Len cs := by omega
    rw [h2]; exact ih

theorem splitOffBytes_eq_some_iff (s : Str) (i : Nat) (r : Str) :
    splitOffBytes s i = some r ↔ ∃ p, s = p ++ r ∧ utf8Len p = i := by
  constructor
  · induction s generalizing i with
    | nil =>
      intro h
      by_cases hi : i = 0
      · subst hi
        rw [splitOffBytes_zero] at h
        exact ⟨[], by simpa using Option.some.inj h, rfl⟩
      · rw [splitOffBytes_nil _ hi] at h; cases h
    | cons c cs ih =>
      intro h
      by_cases hi : i = 0
      · subst hi
        rw [splitOffBytes_zero] at h
        exact ⟨[], by simpa using Option.some.inj h, rfl⟩
      · rw [splitOffBytes_cons _ _ _ hi] at h
        by_cases hc : charBytes c ≤ i
        · rw [if_pos hc] at h
          obtain ⟨p, hp, hl⟩ := ih _ h
          refine ⟨c :: p, by rw [List.cons_append, hp], ?_⟩
          simp only [utf8Len]; omega
        · rw [if_neg hc] at h; cases h
  · rintro ⟨p, rfl, rfl⟩
    exact splitOffBytes_append p r

theorem splitOffBytes_none_of_short (s : Str) (i : Nat) (h : utf8Len s < i) :
    splitOffBytes s i = none := by
  cases hs : splitOffBytes s i with
  | none => rfl
  | some r =>
    obtain ⟨p, rfl, rfl⟩ := (splitOffBytes_eq_some_iff _ _ _).1 hs
    rw [utf8Len_append] at h; omega

theorem splitOffBytes_none_of_no_boundary (s : Str) (i : Nat)
    (h : ¬ ∃ p r, s = p ++ r ∧ utf8Len p = i) : splitOffBytes s i = none := by
  cases hs : splitOffBytes s i with
  | none => rfl
  | some r =>
    obtain ⟨p, hp, hl⟩ := (splitOffBytes_eq_some_iff _ _ _).1 hs
    exact absurd ⟨p, r, hp, hl⟩ h

/-! ## Helper lemmas about the URL parser -/

theorem takeWhile_all_of_mem {p : Char → Bool} {l : Str} (h : ∀ a ∈ l, p a = true) :
    l.takeWhile p = l :=
  List.takeWhile_eq_self_iff.mpr h

theorem parseS3Url_append (c k : Str) (hc : c ≠ []) (hs : '/' ∉ c) :
    parseS3Url (s3Scheme ++ c ++ '/' :: k) =
      some ⟨c, if k.takeWhile (fun x => x != '\n') = [] then none
               else some (k.takeWhile (fun x => x != '\n'))⟩ := by
  have hlen : s3Scheme.length = 5 := rfl
  have htake : (s3Scheme ++ (c ++ '/' :: k)).take 5 = s3Scheme := by
    rw [← hlen, List.take_left]
  have hdrop : (s3Scheme ++ (c ++ '/' :: k)).drop 5 = c ++ '/' :: k := by
    rw [← hlen, List.drop_left]
  have hall : ∀ a ∈ c, (a != '/') = true := by
    intro a ha
    exact bne_iff_ne.mpr fun e => hs (e ▸ ha)
  have htw : (c ++ '/' :: k).takeWhile (fun x => x != '/') = c := by
    rw [List.takeWhile_append, takeWhile_all_of_mem hall]
    simp [List.takeWhile]
  rw [List.append_assoc]
  unfold parseS3Url
  rw [htake, if_pos rfl, hdrop]
  dsimp only
  rw [htw, List.drop_left]
  simp [hc]

theorem parseS3Url_some_decomp (v : Str) (u : S3Url) (h : parseS3Url v = some u) :
    ∃ c k, c ≠ [] ∧ '/' ∉ c ∧ v = s3Scheme ++ c ++ '/' :: k ∧
      u = ⟨c, if k.takeWhile (fun x => x != '\n') = [] then none
              else some (k.takeWhile (fun x => x != '\n'))⟩ := by
  unfold parseS3Url at h
  split at h
  case isFalse => cases h
  case isTrue htake =>
    dsimp only at h
    split at h
    case h_2 => cases h
    case h_1 tail heq =>
      split at h
      case isTrue => cases h
      case isFalse hbne =>
        set rest := v.drop 5 with hrest
        set bucket := rest.takeWhile (fun c => c != '/') with hbucket
        obtain ⟨t, ht⟩ := (List.takeWhile_prefix (l := rest) (fun c => c != '/'))
        have hdrop : rest.drop bucket.length = t := by
          rw [← ht, List.drop_left]
        rw [hdrop] at heq
        subst heq
        have hv : v = s3Scheme ++ bucket ++ '/' :: tail := by
          have hv5 : v.take 5 ++ v.drop 5 = v := List.take_append_drop 5 v
          rw [htake] at hv5
          rw [← hv5, ← hrest, ← ht, List.append_assoc]
        have hmem : '/' ∉ bucket := by
          intro hm
          have := List.mem_takeWhile_imp (hbucket ▸ hm)
          simp at this
        exact ⟨bucket, tail, hbne, hmem, hv, (Option.some.inj h).symm⟩

theorem parseS3Url_isSome_iff (v : Str) : (parseS3Url v).isSome ↔ matchesGrammar v := by
  constructor
  · intro h
    obtain ⟨u, hu⟩ := Option.isSome_iff_exists.mp h
    obtain ⟨c, k, hc, hs, hv, _⟩ := parseS3Url_some_decomp v u hu
    exact ⟨c, k, hc, hs, hv⟩
  · rintro ⟨c, k, hc, hs, rfl⟩
    rw [parseS3Url_append c k hc hs]
    rfl

theorem serialize_parse_of_no_newline (v : Str) (u : S3Url) (h : parseS3Url v = some u)
    (hn : '\n' ∉ v) : s3Scheme ++ serializeLoc u = v := by
  obtain ⟨c, k, hc, hs, rfl, rfl⟩ := parseS3Url_some_decomp v u h
  have hk : ∀ a ∈ k, (a != '\n') = true := by
    intro a ha
    refine bne_iff_ne.mpr fun e => hn ?_
    subst e
    simp [ha]
  have htw : k.takeWhile (fun x => x != '\n') = k := takeWhile_all_of_mem hk
  by_cases hke : k = []
  · subst hke; simp [serializeLoc, htw]
  · simp [serializeLoc, htw, hke]

/-! ## Helper lemmas about matching and expansion -/

theorem captures_isSome_iff (re : Re) (s : Str) :
    (captures re s).isSome = true ↔
      ∃ n, reMatch (matchFuel re (s.drop n)) re (s.drop n) ≠ [] := by
  induction s with
  | nil =>
    rw [captures]
    constructor
    · intro h
      obtain ⟨gs, hg⟩ := Option.isSome_iff_exists.mp h
      refine ⟨0, fun he => ?_⟩
      rw [List.drop_nil] at he
      rw [he] at hg
      simp at hg
    · rintro ⟨n, hn⟩
      rw [List.drop_nil] at hn
      cases hh : (reMatch (matchFuel re []) re []).head? with
      | none => exact absurd (List.head?_eq_none_iff.mp hh) hn
      | some p => simp [hh]
  | cons c cs ih =>
    rw [captures]
    cases hh : (reMatch (matchFuel re (c :: cs)) re (c :: cs)).head? with
    | some p =>
      simp only [Option.isSome_some, true_iff]
      refine ⟨0, fun he => ?_⟩
      rw [List.drop_zero] at he
      simp [he] at hh
    | none =>
      have hnil : reMatch (matchFuel re (c :: cs)) re (c :: cs) = [] :=
        List.head?_eq_none_iff.mp hh
      simp only []
      rw [ih]
      constructor
      · rintro ⟨n, hn⟩
        exact ⟨n + 1, by simpa using hn⟩
      · rintro ⟨n, hn⟩
        cases n with
        | zero => rw [List.drop_zero] at hn; exact absurd hnil hn
        | succ m => exact ⟨m, by simpa using hn⟩

theorem isWordChar_ne (c : Char) (h : isWordChar c = true) : c ≠ '$' ∧ c ≠ '\x7b' := by
  constructor <;> rintro rfl <;> simp [isWordChar] at h

theorem expandAux_nil (gs : Groups) (f : Nat) : expandAux gs f [] = [] := by
  cases f <;> rfl

theorem expandCaptures_ref (gs : Groups) (tok : Str) (h0 : tok ≠ [])
    (hw : ∀ c ∈ tok, isWordChar c = true) :
    expandCaptures gs ( '$' :: tok) = groupRef gs tok := by
  cases tok with
  | nil => exact absurd rfl h0
  | cons d t =>
    obtain ⟨hd1, hd2⟩ := isWordChar_ne d (hw d (by simp))
    have htw : (d :: t).takeWhile isWordChar = d :: t := takeWhile_all_of_mem hw
    rw [expandCaptures]
    show expandAux gs ((d :: t).length + 1 + 1) ( '$' :: d :: t) = groupRef gs (d :: t)
    rw [expandAux]
    rw [if_pos rfl, if_neg hd1, if_neg hd2]
    dsimp only
    rw [htw]
    rw [if_neg (by simp)]
    rw [List.drop_length, expandAux_nil, List.append_nil]

/-! ## Helper lemmas about the per-page pipeline -/

theorem transformObjs_cons_missing (sf : Option Re) (dr : Option Str) (p : Nat)
    (o : Object) (os : List Object) (h : o.key = none ∨ o.size = none) :
    transformObjs sf dr p (o :: os) = transformObjs sf dr p os := by
  obtain ⟨ok, osz⟩ := o
  rcases h with h | h <;> simp only [] at h <;> subst h
  · cases osz <;> rfl
  · cases ok <;> rfl

theorem transformObjs_cons_some (sf : Option Re) (dr : Option Str) (p : Nat)
    (k : Str) (sz : Int) (os : List Object) :
    transformObjs sf dr p (⟨some k, some sz⟩ :: os) =
      match splitOffBytes k p with
      | none => ([], true)
      | some rel =>
        match keyTransform sf dr rel sz with
        | some out => (out :: (transformObjs sf dr p os).1, (transformObjs sf dr p os).2)
        | none => transformObjs sf dr p os := by
  rw [transformObjs]

theorem transformObjs_skip (sf : Option Re) (dr : Option Str) (p : Nat)
    (o : Object) (h : o.key = none ∨ o.size = none) (pre post : List Object) :
    transformObjs sf dr p (pre ++ o :: post) = transformObjs sf dr p (pre ++ post) := by
  induction pre with
  | nil =>
    simpa using transformObjs_cons_missing sf dr p o post h
  | cons o₂ pre₂ ih =>
    obtain ⟨ok, osz⟩ := o₂
    cases ok with
    | none =>
      rw [List.cons_append, List.cons_append,
        transformObjs_cons_missing _ _ _ _ _ (Or.inl rfl),
        transformObjs_cons_missing _ _ _ _ _ (Or.inl rfl)]
      exact ih
    | some k =>
      cases osz with
      | none =>
        rw [List.cons_append, List.cons_append,
          transformObjs_cons_missing _ _ _ _ _ (Or.inr rfl),
          transformObjs_cons_missing _ _ _ _ _ (Or.inr rfl)]
        exact ih
      | some sz =>
        rw [List.cons_append, List.cons_append, transformObjs_cons_some,
          transformObjs_cons_some, ih]

/-! ## Claim theorems -/

/-- Claim C1: with both a pattern and a template (filter-and-rename), the key
transformer drops an entry exactly when the pattern does not match the
relative key, and otherwise outputs the template with each `$`-group
reference replaced by the corresponding captured substring (references to
unset groups expand to the empty string), the size passing through; in
particular pattern `(\d+)/(.+)` with template `archive/$1/$2` maps
`2020/x.log` to `archive/2020/x.log` and drops `readme.txt`. -/
theorem keyTransform_filter_and_rename :
    (∀ re rep key sz, captures re key = none →
        keyTransform (some re) (some rep) key sz = none) ∧
    (∀ re rep key sz gs, captures re key = some gs →
        keyTransform (some re) (some rep) key sz = some (expandCaptures gs rep, sz)) ∧
    (∀ gs tok, tok ≠ [] → (∀ c ∈ tok, isWordChar c = true) →
        expandCaptures gs ( '$' :: tok) = groupRef gs tok) ∧
    (∀ gs name n, parseNat? name = some n → (gs.find? fun q => q.1 == n) = none →
        groupRef gs name = []) ∧
    keyTransform (some digitsSlashRest) (some ( "archive/$1/$2".data))
        ( "2020/x.log".data) 7 = some ( "archive/2020/x.log".data, 7) ∧
    keyTransform (some digitsSlashRest) (some ( "archive/$1/$2".data))
        ( "readme.txt".data) 7 = none := by
  refine ⟨?_, ?_, expandCaptures_ref, ?_, by decide, by decide⟩
  · intro re rep key sz h
    simp [keyTransform, h]
  · intro re rep key sz gs h
    simp [keyTransform, h]
  · intro gs name n h1 h2
    simp [groupRef, h1, h2]

/-- Witness for C1 at concrete inputs. -/
theorem keyTransform_filter_and_rename_witness :
    keyTransform (some digitsSlashRest) (some ( "x".data)) ( "readme.txt".data) 7 = none ∧
    expandCaptures [(1, "A".data)] ( '$' :: "1".data) = groupRef [(1, "A".data)] ( "1".data) ∧
    groupRef [(1, "A".data)] ( "9".data) = [] :=
  ⟨keyTransform_filter_and_rename.1 digitsSlashRest ( "x".data) ( "readme.txt".data) 7
      (by decide),
   keyTransform_filter_and_rename.2.2.1 [(1, "A".data)] ( "1".data) (by decide) (by decide),
   keyTransform_filter_and_rename.2.2.2.1 [(1, "A".data)] ( "9".data) 9 (by decide) (by decide)⟩

/-- Claim C2: the enumeration loop stops successfully as soon as a page is
absent or empty; after a non-empty page it continues with the marker set to
the last entry's key when the fetcher reports truncated, and stops after that
page when it reports not truncated. -/
theorem runLoop_pagination :
    (∀ (ε : Type) (fetch : Option Str → Except ε ListObjectsOutput) sf dr p n marker rsp,
        fetch marker = .ok rsp → (rsp.contents = none ∨ rsp.contents = some []) →
        runLoop fetch sf dr p (n + 1) marker = .ok []) ∧
    (∀ (ε : Type) (fetch : Option Str → Except ε ListObjectsOutput) sf dr p n marker rsp
        objs out lastObj lk,
        fetch marker = .ok rsp → rsp.contents = some objs → objs ≠ [] →
        transformObjs sf dr p objs = (out, false) → rsp.is_truncated = some true →
        objs.getLast? = some lastObj → lastObj.key = some lk →
        runLoop fetch sf dr p (n + 1) marker =
          (runLoop fetch sf dr p n (some lk)).withOutput out) ∧
    (∀ (ε : Type) (fetch : Option Str → Except ε ListObjectsOutput) sf dr p n marker rsp
        objs out,
        fetch marker = .ok rsp → rsp.contents = some objs → objs ≠ [] →
        transformObjs sf dr p objs = (out, false) → rsp.is_truncated = some false →
        runLoop fetch sf dr p (n + 1) marker = .ok out) := by
  refine ⟨?_, ?_, ?_⟩
  · intro ε fetch sf dr p n marker rsp hf hc
    rcases hc with hc | hc <;> simp [runLoop, hf, hc]
  · intro ε fetch sf dr p n marker rsp objs out lastObj lk hf hc hne htr hit hl hk
    simp [runLoop, hf, hc, hne, htr, hit, hl, hk]
  · intro ε fetch sf dr p n marker rsp objs out hf hc hne htr hit
    simp [runLoop, hf, hc, hne, htr, hit]

/-- Witness for C2 at concrete fetchers. -/
theorem runLoop_pagination_witness :
    runLoop fetchEmptyPage none none 0 1 none = .ok [] ∧
    runLoop fetchTruncOne none none 0 1 none =
      (runLoop fetchTruncOne none none 0 0 (some ( "a".data))).withOutput
        [( "a".data, 1)] ∧
    runLoop fetchLastOne none none 0 1 none = .ok [( "a".data, 1)] :=
  ⟨runLoop_pagination.1 Unit fetchEmptyPage none none 0 0 none ⟨some [], none⟩ rfl
      (Or.inr rfl),
   runLoop_pagination.2.1 Unit fetchTruncOne none none 0 0 none
      ⟨some [⟨some ( "a".data), some 1⟩], some true⟩ [⟨some ( "a".data), some 1⟩]
      [( "a".data, 1)] ⟨some ( "a".data), some 1⟩ ( "a".data) rfl rfl (by decide)
      (by decide) rfl (by decide) rfl,
   runLoop_pagination.2.2 Unit fetchLastOne none none 0 0 none
      ⟨some [⟨some ( "a".data), some 1⟩], some false⟩ [⟨some ( "a".data), some 1⟩]
      [( "a".data, 1)] rfl rfl (by decide) (by decide) rfl⟩

/-- Claim C3: the relative key handed to the filter stage is the full key with
the first `len(prefix)` bytes removed from the front; with no prefix supplied
the byte count is 0 and the key is unchanged; prefix `logs/` and full key
`logs/2020/x.log` give `2020/x.log`. -/
theorem relativeKey_of_prefix :
    (∀ key i r, splitOffBytes key i = some r → ∃ p, key = p ++ r ∧ utf8Len p = i) ∧
    (∀ pfx rest, splitOffBytes (pfx ++ rest) (pfxLenOf (some pfx)) = some rest) ∧
    (∀ key, splitOffBytes key (pfxLenOf none) = some key) ∧
    splitOffBytes ( "logs/2020/x.log".data) (pfxLenOf (some ( "logs/".data))) =
      some ( "2020/x.log".data) := by
  refine ⟨?_, ?_, ?_, by decide⟩
  · intro key i r h
    exact (splitOffBytes_eq_some_iff key i r).1 h
  · intro pfx rest
    simpa [pfxLenOf] using splitOffBytes_append pfx rest
  · intro key
    simpa [pfxLenOf] using splitOffBytes_zero key

/-- Witness for C3 at a concrete split. -/
theorem relativeKey_of_prefix_witness :
    ∃ p, "ab".data = p ++ "b".data ∧ utf8Len p = 1 :=
  relativeKey_of_prefix.1 ( "ab".data) 1 ( "b".data) (by decide)

/-- Claim C4: with a pattern but no template (filter-only), the key
transformer keeps an entry unchanged exactly when the pattern matches
anywhere in the relative key (the match may start at any position), and drops
it otherwise; pattern `\.log$` keeps `2020/x.log` and drops `2020/x.tmp`. -/
theorem keyTransform_filter_only :
    (∀ re key sz, keyTransform (some re) none key sz =
        if is_match re key then some (key, sz) else none) ∧
    (∀ re s, is_match re s = true ↔
        ∃ n, reMatch (matchFuel re (s.drop n)) re (s.drop n) ≠ []) ∧
    keyTransform (some dotLogEnd) none ( "2020/x.log".data) 3 =
      some ( "2020/x.log".data, 3) ∧
    keyTransform (some dotLogEnd) none ( "2020/x.tmp".data) 3 = none := by
  refine ⟨fun re key sz => rfl, ?_, by decide, by decide⟩
  intro re s
  exact captures_isSome_iff re s

/-- Claim C5: the URL parser rejects a string exactly when it does not match
the grammar `s3://container/keypath` (non-empty slash-free container), and on
success returns the container together with the key-path capture (the text up
to the first newline, since `.` in the source regex does not match `\n`) when
that capture is non-empty, and no prefix otherwise; `s3://bucket/a/b/` gives
container `bucket` and prefix `a/b/`, while `s3://bucket/` gives container
`bucket` and no prefix. -/
theorem parseS3Url_grammar_spec :
    (∀ v, (parseS3Url v).isSome ↔ matchesGrammar v) ∧
    (∀ c k, c ≠ [] → '/' ∉ c →
        parseS3Url (s3Scheme ++ c ++ '/' :: k) =
          some ⟨c, if k.takeWhile (fun x => x != '\n') = [] then none
                   else some (k.takeWhile (fun x => x != '\n'))⟩) ∧
    parseS3Url ( "s3://bucket/a/b/".data) = some ⟨ "bucket".data, some ( "a/b/".data)⟩ ∧
    parseS3Url ( "s3://bucket/".data) = some ⟨ "bucket".data, none⟩ :=
  ⟨parseS3Url_isSome_iff, parseS3Url_append, by decide, by decide⟩

/-- Witness for C5 at a concrete grammar-conforming string. -/
theorem parseS3Url_grammar_spec_witness :
    parseS3Url (s3Scheme ++ "bucket".data ++ '/' :: "a/b/".data) =
      some ⟨ "bucket".data,
            if ( "a/b/".data).takeWhile (fun x => x != '\n') = [] then none
            else some (( "a/b/".data).takeWhile (fun x => x != '\n'))⟩ :=
  parseS3Url_grammar_spec.2.1 ( "bucket".data) ( "a/b/".data) (by decide) (by decide)

/-- Counterexample for C6: parsing keeps only the part of the key path before
a newline, so re-serializing does not reproduce the part of the accepted
string after the scheme. -/
theorem parse_serialize_roundtrip_cex :
    parseS3Url ( "s3://b/x\ny".data) = some ⟨ "b".data, some ( "x".data)⟩ ∧
    s3Scheme ++ serializeLoc ⟨ "b".data, some ( "x".data)⟩ ≠ "s3://b/x\ny".data := by
  decide

/-- Claim C6 (amended): for every accepted location string that contains no
newline, re-serializing the parse result as container ++ "/" ++ (prefix or
empty) reproduces the container-and-prefix portion of the original string. -/
theorem parse_serialize_roundtrip_no_newline :
    ∀ v u, parseS3Url v = some u → '\n' ∉ v → s3Scheme ++ serializeLoc u = v :=
  serialize_parse_of_no_newline

/-- Witness for the amended C6 at a concrete URL. -/
theorem parse_serialize_roundtrip_no_newline_witness :
    s3Scheme ++ serializeLoc ⟨ "bucket".data, some ( "a/b/".data)⟩ =
      "s3://bucket/a/b/".data :=
  parse_serialize_roundtrip_no_newline ( "s3://bucket/a/b/".data)
    ⟨ "bucket".data, some ( "a/b/".data)⟩ (by decide) (by decide)

/-- Claim C7: a listed entry missing its key or its size is silently excluded
from the page's output and does not abort the page; an entry with a size but
no key contributes zero records while the rest of the page is still
emitted. -/
theorem transformObjs_skips_missing :
    (∀ sf dr p (o : Object) pre post, o.key = none ∨ o.size = none →
        transformObjs sf dr p (pre ++ o :: post) = transformObjs sf dr p (pre ++ post)) ∧
    transformObjs none none 0 [⟨none, some 5⟩, ⟨some ( "k".data), some 7⟩] =
      ([( "k".data, 7)], false) := by
  refine ⟨?_, by decide⟩
  intro sf dr p o pre post h
  exact transformObjs_skip sf dr p o h pre post

/-- Witness for C7: a keyless entry in front of a normal one is dropped. -/
theorem transformObjs_skips_missing_witness :
    transformObjs none none 0 ([] ++ ⟨none, some 5⟩ :: [⟨some ( "k".data), some 7⟩]) =
      transformObjs none none 0 ([] ++ [⟨some ( "k".data), some 7⟩]) :=
  transformObjs_skips_missing.1 none none 0 ⟨none, some 5⟩ []
    [⟨some ( "k".data), some 7⟩] (Or.inl rfl)

/-- Claim C8: a fetcher error propagates out of the loop immediately, with no
retry and no records from the failing iteration; the process exits 0 exactly
when `run` completed, and exits 1 on any propagated error. -/
theorem error_propagation_and_exit :
    (∀ (ε : Type) (fetch : Option Str → Except ε ListObjectsOutput) sf dr p n marker e,
        fetch marker = .error e → runLoop fetch sf dr p (n + 1) marker = .apiError [] e) ∧
    (∀ (ε : Type) (res : Except ε Unit), mainExitCode res = 0 ↔ ∃ u, res = .ok u) ∧
    (∀ (ε : Type) (res : Except ε Unit) e, res = .error e → mainExitCode res = 1) := by
  refine ⟨?_, ?_, ?_⟩
  · intro ε fetch sf dr p n marker e h
    simp [runLoop, h]
  · intro ε res
    cases res <;> simp [mainExitCode]
  · rintro ε res e rfl
    rfl

/-- Witness for C8 at a failing fetcher. -/
theorem error_propagation_and_exit_witness :
    runLoop fetchFails none none 0 1 none = .apiError [] () ∧
    mainExitCode (Except.error () : Except Unit Unit) = 1 :=
  ⟨error_propagation_and_exit.1 Unit fetchFails none none 0 0 none () rfl,
   error_propagation_and_exit.2.2 Unit (Except.error ()) () rfl⟩

/-- Claim C9: after a non-empty page the truncated flag is unwrapped
unconditionally, so a response without the flag panics instead of terminating
or continuing; and when the last raw entry of a truncated page has no key,
the continuation marker is set back to `none`, restarting the listing from
the beginning. -/
theorem truncated_unwrap_and_keyless_last :
    (∀ (ε : Type) (fetch : Option Str → Except ε ListObjectsOutput) sf dr p n marker rsp
        objs out,
        fetch marker = .ok rsp → rsp.contents = some objs → objs ≠ [] →
        transformObjs sf dr p objs = (out, false) → rsp.is_truncated = none →
        runLoop fetch sf dr p (n + 1) marker = .panicked out) ∧
    (∀ (ε : Type) (fetch : Option Str → Except ε ListObjectsOutput) sf dr p n marker rsp
        objs out lastObj,
        fetch marker = .ok rsp → rsp.contents = some objs → objs ≠ [] →
        transformObjs sf dr p objs = (out, false) → rsp.is_truncated = some true →
        objs.getLast? = some lastObj → lastObj.key = none →
        runLoop fetch sf dr p (n + 1) marker =
          (runLoop fetch sf dr p n none).withOutput out) := by
  refine ⟨?_, ?_⟩
  · intro ε fetch sf dr p n marker rsp objs out hf hc hne htr hit
    simp [runLoop, hf, hc, hne, htr, hit]
  · intro ε fetch sf dr p n marker rsp objs out lastObj hf hc hne htr hit hl hk
    simp [runLoop, hf, hc, hne, htr, hit, hl, hk]

/-- Witness for C9 at concrete fetchers. -/
theorem truncated_unwrap_and_keyless_last_witness :
    runLoop fetchNoFlag none none 0 1 none = .panicked [( "a".data, 1)] ∧
    runLoop fetchKeylessLast none none 0 1 none =
      (runLoop fetchKeylessLast none none 0 0 none).withOutput [] :=
  ⟨truncated_unwrap_and_keyless_last.1 Unit fetchNoFlag none none 0 0 none
      ⟨some [⟨some ( "a".data), some 1⟩], none⟩ [⟨some ( "a".data), some 1⟩]
      [( "a".data, 1)] rfl rfl (by decide) (by decide) rfl,
   truncated_unwrap_and_keyless_last.2 Unit fetchKeylessLast none none 0 0 none
      ⟨some [⟨none, some 2⟩], some true⟩ [⟨none, some 2⟩] [] ⟨none, some 2⟩
      rfl rfl (by decide) (by decide) rfl (by decide) rfl⟩

/-- Claim C10: prefix stripping removes the first `len(prefix)` bytes from
every surviving key purely by byte count, without checking that the key
begins with the prefix, and it panics (models: `none` / a panicked page)
whenever the key is shorter than the prefix in bytes or the cut falls inside
a multi-byte character. -/
theorem splitOff_unchecked_and_panics :
    (∀ key p₁ p₂, utf8Len p₁ = utf8Len p₂ →
        splitOffBytes key (pfxLenOf (some p₁)) = splitOffBytes key (pfxLenOf (some p₂))) ∧
    splitOffBytes ( "abc".data) (pfxLenOf (some ( "xy".data))) = some ( "c".data) ∧
    (∀ key i, utf8Len key < i → splitOffBytes key i = none) ∧
    (∀ key i, (¬ ∃ p r, key = p ++ r ∧ utf8Len p = i) → splitOffBytes key i = none) ∧
    splitOffBytes ( "a".data) (pfxLenOf (some ( "abc".data))) = none ∧
    splitOffBytes ( "éx".data) (pfxLenOf (some ( "a".data))) = none ∧
    transformObjs none none (pfxLenOf (some ( "logs/".data)))
      [⟨some ( "a".data), some 1⟩] = ([], true) ∧
    runLoop fetchShortKey none none (pfxLenOf (some ( "logs/".data))) 1 none =
      .panicked [] := by
  refine ⟨?_, by decide, splitOffBytes_none_of_short, splitOffBytes_none_of_no_boundary,
    by decide, by decide, by decide, by decide⟩
  intro key p₁ p₂ h
  simp [pfxLenOf, h]

/-- Witness for C10 at concrete inputs. -/
theorem splitOff_unchecked_and_panics_witness :
    splitOffBytes ( "xy".data) (pfxLenOf (some ( "ab".data))) =
      splitOffBytes ( "xy".data) (pfxLenOf (some ( "cd".data))) ∧
    splitOffBytes ( "a".data) 5 = none :=
  ⟨splitOff_unchecked_and_panics.1 ( "xy".data) ( "ab".data) ( "cd".data) (by decide),
   splitOff_unchecked_and_panics.2.2.1 ( "a".data) 5 (by decide)⟩

end S3BulkMove
